import Mathlib

/-!
Shallow embedding of the konflux pipeline migration tool (`fn.py` and
`migrate.py`): YAML-like document values, the closure combinators of
`fn.py` as an operation type with an executable semantics, the diff-text
decoder, the action classifier, and both patch compilers, together with
a small mutable-heap model used for the deep-copy contract of `append`.
-/

deriving instance DecidableEq for Except

namespace Migration

/-- YAML/JSON-like document values, the data manipulated by the tool.
Mappings keep insertion order, as Python dicts do.  Floating point
scalars are omitted: no analysed code path involves them. -/
inductive Val where
  | null
  | bool (b : Bool)
  | int (n : Int)
  | str (s : String)
  | arr (elems : List Val)
  | obj (fields : List (String × Val))

mutual

/-- Structural (boolean) equality on document values; models Python
`==` on decoded YAML data.  (Python corner `True == 1` is not modelled;
no analysed code path compares a bool against an int.) -/
def Val.beq : Val → Val → Bool
  | .null, .null => true
  | .bool a, .bool b => a == b
  | .int a, .int b => a == b
  | .str a, .str b => a == b
  | .arr a, .arr b => Val.beqArr a b
  | .obj a, .obj b => Val.beqObj a b
  | _, _ => false

def Val.beqArr : List Val → List Val → Bool
  | [], [] => true
  | x :: xs, y :: ys => Val.beq x y && Val.beqArr xs ys
  | _, _ => false

def Val.beqObj : List (String × Val) → List (String × Val) → Bool
  | [], [] => true
  | (k, v) :: fs, (k2, v2) :: gs => k == k2 && Val.beq v v2 && Val.beqObj fs gs
  | _, _ => false

end

mutual

theorem Val.beq_sound : ∀ a b : Val, Val.beq a b = true → a = b
  | .null, b, h => by cases b <;> first
      | rfl
      | exact Bool.noConfusion h
  | .bool x, b, h => by cases b <;> simp_all [Val.beq]
  | .int x, b, h => by cases b <;> simp_all [Val.beq]
  | .str x, b, h => by cases b <;> simp_all [Val.beq]
  | .arr xs, b, h => by
      cases b <;> simp only [Val.beq] at h <;> first
        | exact Bool.noConfusion h
        | exact congrArg Val.arr (Val.beqArr_sound xs _ h)
  | .obj fs, b, h => by
      cases b <;> simp only [Val.beq] at h <;> first
        | exact Bool.noConfusion h
        | exact congrArg Val.obj (Val.beqObj_sound fs _ h)

theorem Val.beqArr_sound : ∀ a b : List Val, Val.beqArr a b = true → a = b
  | [], [], _ => rfl
  | [], _ :: _, h => Bool.noConfusion h
  | _ :: _, [], h => Bool.noConfusion h
  | x :: xs, y :: ys, h => by
      simp only [Val.beqArr, Bool.and_eq_true] at h
      rw [Val.beq_sound x y h.1, Val.beqArr_sound xs ys h.2]

theorem Val.beqObj_sound :
    ∀ a b : List (String × Val), Val.beqObj a b = true → a = b
  | [], [], _ => rfl
  | [], _ :: _, h => Bool.noConfusion h
  | _ :: _, [], h => Bool.noConfusion h
  | (k, v) :: fs, (k2, v2) :: gs, h => by
      simp only [Val.beqObj, Bool.and_eq_true, beq_iff_eq] at h
      rw [h.1.1, Val.beq_sound v v2 h.1.2, Val.beqObj_sound fs gs h.2]

end

mutual

theorem Val.beq_refl : ∀ a : Val, Val.beq a a = true
  | .null => rfl
  | .bool x => by simp [Val.beq]
  | .int x => by simp [Val.beq]
  | .str x => by simp [Val.beq]
  | .arr xs => Val.beqArr_refl xs
  | .obj fs => Val.beqObj_refl fs

theorem Val.beqArr_refl : ∀ a : List Val, Val.beqArr a a = true
  | [] => rfl
  | x :: xs => by simp [Val.beqArr, Val.beq_refl x, Val.beqArr_refl xs]

theorem Val.beqObj_refl : ∀ a : List (String × Val), Val.beqObj a a = true
  | [] => rfl
  | (k, v) :: fs => by simp [Val.beqObj, Val.beq_refl v, Val.beqObj_refl fs]

end

instance : DecidableEq Val := fun a b =>
  if h : Val.beq a b = true then .isTrue (Val.beq_sound a b h)
  else .isFalse (fun he => h (he ▸ Val.beq_refl a))

/-- First-match association lookup on an ordered mapping; models
`obj[key]` / `key in obj` on a Python dict (whose keys are unique). -/
def lookupField : List (String × Val) → String → Option Val
  | [], _ => none
  | (k2, v) :: fs, k => if k2 = k then some v else lookupField fs k

/-- One step of a reference path into a document: a mapping field or a
sequence index. -/
inductive PathStep where
  | fld (k : String)
  | idx (i : Nat)
  deriving DecidableEq

/-- Read the sub-document at a path. -/
def getAt : Val → List PathStep → Option Val
  | v, [] => some v
  | .obj fields, .fld k :: p =>
      match lookupField fields k with
      | some v => getAt v p
      | none => none
  | .arr vs, .idx i :: p =>
      match vs[i]? with
      | some v => getAt v p
      | none => none
  | _, _ :: _ => none

/-- Rewrite the first field named `k` (Python dicts hold it uniquely). -/
def mapFirstField (k : String) (f : Val → Val) :
    List (String × Val) → List (String × Val)
  | [] => []
  | (k2, v) :: fs =>
      if k2 = k then (k2, f v) :: fs else (k2, v) :: mapFirstField k f fs

/-- Rewrite the element at index `i`. -/
def modifyIdx (f : Val → Val) : Nat → List Val → List Val
  | _, [] => []
  | 0, x :: xs => f x :: xs
  | n + 1, x :: xs => x :: modifyIdx f n xs

/-- Write a sub-document at a path (identity when the path is invalid;
the semantics below only writes at paths it has just read). -/
def setAt : Val → List PathStep → Val → Val
  | _, [], w => w
  | v, s :: p, w =>
    match v, s with
    | .obj fields, .fld k => .obj (mapFirstField k (fun u => setAt u p w) fields)
    | .arr vs, .idx i => .arr (modifyIdx (fun u => setAt u p w) i vs)
    | v, _ => v

/-- Python exceptions raised by the combinators and compilers.  The
payload strings/numbers record the offending key or index; cases where
CPython would raise a differently named exception for the same failure
(for example `AttributeError` for `append` on a non-list) are still
modelled as `typeError`: no analysed claim distinguishes them. -/
inductive Err where
  | keyError (k : String)
  | typeError
  | indexError (len i : Nat)
  | valueError (action : String)
  deriving DecidableEq

/-- The two element predicates `migrate.py` builds: `match_task(name)`
(`task["name"] == name`) and `match_name_value(name, value)`
(`obj["name"] == name and obj["value"] == value`). -/
inductive Pred where
  | matchTask (name : String)
  | matchNameValue (name : Val) (value : Val)
  deriving DecidableEq

/-- Evaluate a predicate on one element, with Python's short-circuit
`and` and its `KeyError`/`TypeError` failure modes. -/
def Pred.eval : Pred → Val → Except Err Bool
  | .matchTask name, .obj fields =>
      match lookupField fields "name" with
      | some v => .ok (Val.beq v (.str name))
      | none => .error (.keyError "name")
  | .matchTask _, _ => .error .typeError
  | .matchNameValue n v, .obj fields =>
      match lookupField fields "name" with
      | some a =>
          if Val.beq a n then
            match lookupField fields "value" with
            | some b => .ok (Val.beq b v)
            | none => .error (.keyError "value")
          else .ok false
      | none => .error (.keyError "name")
  | .matchNameValue _ _, _ => .error .typeError

/-- The closures built by `fn.py`, as a first-order operation type.
`with_path` keeps the variadic `*parts` and the `default` keyword of
the source; the compiled programs of `generate_dsl` only ever use a
single part and the `None` default. -/
inductive Fn where
  | with_path (parts : List String) (default : Option Val)
  | if_matches (p : Pred)
  | nth (i : Nat)
  | append (v : Val)
  | delete_if (p : Pred)
  | delete_key (k : String)
  deriving DecidableEq

/-- An element of the detached list built by `if_matches`: either a
reference into the shared document (the usual case — Python's list
comprehension copies references, not values) or a detached value
(only reachable by appending to such a detached list). -/
inductive Elem where
  | eref (p : List PathStep)
  | eval (v : Val)
  deriving DecidableEq

/-- The object currently threaded through a compiled program: a
reference into the shared document, or the detached (but
element-aliasing) list produced by `if_matches`. -/
inductive Loc where
  | ref (p : List PathStep)
  | filtered (es : List Elem)
  deriving DecidableEq

/-- Execution state of a program: the shared document plus the object
currently in hand. -/
structure St where
  doc : Val
  loc : Loc
  deriving DecidableEq

/-- The loop body of `fn.with_path`: for each part, insert the default
when the field is absent *and* a non-`None` default was supplied
(Python inserts at the end of the dict), then descend.  On failure the
raised exception carries the document as mutated so far. -/
def runWithPath :
    List String → Option Val → Val → List PathStep →
    Except (Err × Val) (Val × List PathStep)
  | [], _, doc, p => .ok (doc, p)
  | part :: rest, dflt, doc, p =>
    match getAt doc p with
    | some (.obj fields) =>
      match lookupField fields part, dflt with
      | some _, _ => runWithPath rest dflt doc (p ++ [.fld part])
      | none, some d =>
          runWithPath rest dflt
            (setAt doc p (.obj (fields ++ [(part, d)]))) (p ++ [.fld part])
      | none, none => .error (.keyError part, doc)
    | _ => .error (.typeError, doc)

/-- The list comprehension of `fn.if_matches` over a document-resident
list: evaluate the predicate on each element in order (the first
predicate failure aborts, nothing having been written) and collect
references to the matching elements. -/
def matchingElems (pr : Pred) (base : List PathStep) :
    Nat → List Val → Except Err (List Elem)
  | _, [] => .ok []
  | i, v :: vs =>
    match Pred.eval pr v with
    | .error e => .error e
    | .ok b =>
      match matchingElems pr base (i + 1) vs with
      | .error e => .error e
      | .ok es => .ok (if b then .eref (base ++ [.idx i]) :: es else es)

/-- The effect of `fn.delete_if` on a list of values: `delete_if`
first collects the indices of matching elements (so a predicate
failure aborts before anything is popped), then pops them, which
keeps exactly the elements the predicate rejects, in order. -/
def filterOutM (pr : Pred) : List Val → Except Err (List Val)
  | [] => .ok []
  | v :: vs =>
    match Pred.eval pr v with
    | .error e => .error e
    | .ok b =>
      match filterOutM pr vs with
      | .error e => .error e
      | .ok ws => .ok (if b then ws else v :: ws)

/-- Value denoted by an element of a detached filtered list. -/
def elemVal (doc : Val) : Elem → Option Val
  | .eref p => getAt doc p
  | .eval v => some v

/-- `fn.delete_if` on the detached list built by `if_matches`: pops
matching references from the detached list only, leaving the shared
document untouched. -/
def filterOutElems (pr : Pred) (doc : Val) : List Elem → Except Err (List Elem)
  | [] => .ok []
  | e :: es =>
    match elemVal doc e with
    | none => .error .typeError
    | some v =>
      match Pred.eval pr v with
      | .error er => .error er
      | .ok b =>
        match filterOutElems pr doc es with
        | .error er => .error er
        | .ok fs => .ok (if b then fs else e :: fs)

/-- Execute one `fn.py` closure on the threaded state.  Each case
mirrors the corresponding function of `fn.py`; a raised exception
carries the document state at the raise.  Python corners that no
compiled program can reach (indexing a string, operating on the
detached filtered list with a mapping operation, …) are modelled as
`typeError`, matching the `TypeError` CPython raises there. -/
def Fn.run : Fn → St → Except (Err × Val) St
  | .with_path parts dflt, st =>
    match st.loc with
    | .ref p =>
      match runWithPath parts dflt st.doc p with
      | .ok (d, p2) => .ok ⟨d, .ref p2⟩
      | .error e => .error e
    | .filtered _ => .error (.typeError, st.doc)
  | .if_matches pr, st =>
    match st.loc with
    | .ref p =>
      match getAt st.doc p with
      | some (.arr vs) =>
        match matchingElems pr p 0 vs with
        | .ok es => .ok ⟨st.doc, .filtered es⟩
        | .error e => .error (e, st.doc)
      | some (.obj []) => .ok ⟨st.doc, .filtered []⟩
      | some (.str s) =>
          if s.data = [] then .ok ⟨st.doc, .filtered []⟩
          else .error (.typeError, st.doc)
      | _ => .error (.typeError, st.doc)
    | .filtered es =>
      match filterOutElems pr st.doc es with
      | .ok _ => .ok ⟨st.doc, .filtered es⟩
      | .error e => .error (e, st.doc)
  | .nth i, st =>
    match st.loc with
    | .filtered es =>
      if h : i < es.length then
        match es.get ⟨i, h⟩ with
        | .eref q => .ok ⟨st.doc, .ref q⟩
        | .eval _ => .error (.typeError, st.doc)
      else .error (.indexError es.length i, st.doc)
    | .ref p =>
      match getAt st.doc p with
      | some (.arr vs) =>
          if i < vs.length then .ok ⟨st.doc, .ref (p ++ [.idx i])⟩
          else .error (.indexError vs.length i, st.doc)
      | _ => .error (.typeError, st.doc)
  | .append v, st =>
    match st.loc with
    | .ref p =>
      match getAt st.doc p with
      | some (.arr vs) => .ok ⟨setAt st.doc p (.arr (vs ++ [v])), st.loc⟩
      | _ => .error (.typeError, st.doc)
    | .filtered es => .ok ⟨st.doc, .filtered (es ++ [.eval v])⟩
  | .delete_if pr, st =>
    match st.loc with
    | .ref p =>
      match getAt st.doc p with
      | some (.arr vs) =>
        match filterOutM pr vs with
        | .ok ws => .ok ⟨setAt st.doc p (.arr ws), st.loc⟩
        | .error e => .error (e, st.doc)
      | _ => .error (.typeError, st.doc)
    | .filtered es =>
      match filterOutElems pr st.doc es with
      | .ok fs => .ok ⟨st.doc, .filtered fs⟩
      | .error e => .error (e, st.doc)
  | .delete_key k, st =>
    match st.loc with
    | .ref p =>
      match getAt st.doc p with
      | some (.obj fields) =>
          .ok ⟨setAt st.doc p (.obj (fields.filter (fun kv => kv.1 ≠ k))), st.loc⟩
      | _ => .error (.typeError, st.doc)
    | .filtered _ => .error (.typeError, st.doc)

/-- A compiled patch program: the list of closures one `apply(*fns)`
call composes for a single diff path. -/
abbrev Prog := List Fn

/-- `fn.apply`: thread the state through the closures in order. -/
def applyFns : List Fn → St → Except (Err × Val) St
  | [], st => .ok st
  | f :: fs, st =>
    match f.run st with
    | .ok st2 => applyFns fs st2
    | .error e => .error e

/-- Run one compiled program against the shared document (the Python
migration callable is handed the document itself, so execution starts
focused at the root). -/
def applyProg (m : Prog) (doc : Val) : Except (Err × Val) Val :=
  match applyFns m ⟨doc, .ref []⟩ with
  | .ok st => .ok st.doc
  | .error e => .error e

/-- The loop of `migrate_with_dsl`: apply each program in path order to
the shared in-memory document.  A raised exception propagates, ending
the run; the pair returned is the document state at that moment
(mutations already committed are kept — there is no rollback) together
with the error, if any. -/
def runMigrations : List Prog → Val → Val × Option Err
  | [], doc => (doc, none)
  | m :: ms, doc =>
    match applyProg m doc with
    | .ok d2 => runMigrations ms d2
    | .error (e, d2) => (d2, some e)

def splitOnCharAux (c : Char) : List Char → List Char → List String
  | [], acc => [String.mk acc.reverse]
  | x :: xs, acc =>
      if x = c then String.mk acc.reverse :: splitOnCharAux c xs []
      else splitOnCharAux c xs (x :: acc)

/-- Python `str.split(sep)` for a one-character separator: `""` splits
to `[""]`, adjacent separators yield empty segments. -/
def splitOnChar (c : Char) (s : String) : List String :=
  splitOnCharAux c s.data []

/-- Python `str.rstrip()` (the whitespace characters relevant to the
decoded diff text: space, tab, carriage return, newline). -/
def rstrip (s : String) : String :=
  String.mk (s.data.reverse.dropWhile Char.isWhitespace).reverse

def countLeadingSpacesData : List Char → Nat
  | [] => 0
  | c :: cs => if c = ' ' then countLeadingSpacesData cs + 1 else 0

/-- `migrate.count_leading_spaces`: spaces before the first non-space
character (a tab stops the count, as in the source loop). -/
def count_leading_spaces (s : String) : Nat :=
  countLeadingSpacesData s.data

/-- Per-line re-emission step of `convert_difference`: a line whose
`rstrip` is empty vanishes; leading-space count 0 emits a quoted
top-level key, count 2 emits a quoted second-level key marked as a
literal block, and every other count re-emits the line verbatim
(`" " * n + s[n:]`).  The final YAML load of the joined lines is
delegated to the external structured-text parser. -/
def convertLine (line : String) : List String :=
  let s := rstrip line
  if s.data = [] then []
  else
    let n := count_leading_spaces s
    if n = 0 then ["\"" ++ s ++ "\":"]
    else if n = 2 then ["  \"" ++ String.mk (s.data.drop 2) ++ "\": |"]
    else [String.mk (List.replicate n ' ' ++ s.data.drop n)]

/-- The line-decoding loop of `convert_difference` (reading the diff
text line by line; `readline` cuts at newlines). -/
def convert_difference_lines (difference : String) : List String :=
  ((splitOnChar '\n' difference).map convertLine).flatten

def isLowerAZ (c : Char) : Bool := 'a' ≤ c && c ≤ 'z'

/-- Expect a literal prefix, returning the remainder. -/
def dropLit : List Char → List Char → Option (List Char)
  | [], cs => some cs
  | l :: ls, c :: cs => if c = l then dropLit ls cs else none
  | _ :: _, [] => none

/-- Python's `$` in `re.match`: end of string, or just before one
final trailing newline. -/
def endOfMatchOk : List Char → Bool
  | [] => true
  | ['\n'] => true
  | _ => false

def matchActionTail (ty : String) (r : List Char) : Option (String × String) :=
  match (match dropLit "entries ".data r with
         | some r2 => some r2
         | none => dropLit "entry ".data r) with
  | none => none
  | some r2 =>
    match dropLit "added:".data r2 with
    | some r3 => if endOfMatchOk r3 then some (ty, "added") else none
    | none =>
      match dropLit "removed:".data r2 with
      | some r3 => if endOfMatchOk r3 then some (ty, "removed") else none
      | none => none

/-- `LIST_MAP_ACTIONS_RE.match`: the anchored pattern
`. ([a-z]+) (list|map) (entry|entries) (added|removed):` — one marker
character (any but newline), a lowercase quantity word (captured but
discarded by the callers), the container kind, the entry noun and the
operation, ending at the colon.  Returns the `type` and `operation`
groups.  Character classes are modelled over ASCII. -/
def matchAction (s : String) : Option (String × String) :=
  match s.data with
  | marker :: ' ' :: r0 =>
    if marker = '\n' then none
    else
      let cnt := r0.takeWhile isLowerAZ
      if cnt = [] then none
      else
        match r0.drop cnt.length with
        | ' ' :: r1 =>
          match dropLit "list ".data r1 with
          | some r2 => matchActionTail "list" r2
          | none =>
            match dropLit "map ".data r1 with
            | some r2 => matchActionTail "map" r2
            | none => none
        | _ => none
  | _ => none

def TK_LIST_FIELDS : List String := ["params", "tasks", "workspaces"]

/-- `migrate.is_tk_list_fields`: membership in the fixed registry of
indexed-container field names. -/
def is_tk_list_fields (name : String) : Bool := TK_LIST_FIELDS.contains name

/-- `\w` and `-`, the characters `task_name` may consist of (ASCII). -/
def isWordDashChar (c : Char) : Bool := c.isAlphanum || c = '_' || c = '-'

/-- The path gate of `generate_dsl`:
`re.match(r"^spec\.tasks\.(?P<task_name>[\w-]+)\.params$", path)`.
Since neither `\w` nor `-` covers a dot, the pattern is equivalent to
the split form below; `$` also accepts one trailing newline. -/
def dslPathMatch (path : String) : Bool :=
  match splitOnChar '.' path with
  | ["spec", "tasks", t, last] =>
      !t.data.isEmpty && t.data.all isWordDashChar &&
        (last == "params" || last == "params\n")
  | _ => false

/-- The per-path navigation compiler shared by both backends (the loop
over `enumerate(parts)`): a segment whose predecessor is in the
registry becomes `if_matches(match_task(part))` + `nth(0)`, any other
segment a plain single-part `with_path(part)` — with no `default`
argument, hence `default=None`. -/
def pathFnsAux : Option String → List String → List Fn
  | _, [] => []
  | prev, part :: rest =>
    (match prev with
     | some q =>
        if is_tk_list_fields q then [.if_matches (.matchTask part), .nth 0]
        else [.with_path [part] none]
     | none => [.with_path [part] none]) ++ pathFnsAux (some part) rest

def pathFns (path : String) : List Fn :=
  pathFnsAux none (splitOnChar '.' path)

/-- `load_list_details` wraps the detail block under a `list:` key and
YAML-parses it; the parse itself is delegated to the external parser,
so details reach the compiler as already-parsed values and this model
keeps only the caller's requirement that the decoded detail be
iterable as a sequence of entries. -/
def load_list_details : Val → Except Err (List Val)
  | .arr vs => .ok vs
  | _ => .error .typeError

/-- `load_map_details` YAML-parses the detail block directly; on an
already-parsed value it is the identity. -/
def load_map_details (d : Val) : Val := d

/-- `match_name_value(**detail_item)`: keyword expansion requires the
entry to carry exactly the `name` and `value` fields (in either
order); any other field set raises `TypeError` while the program is
being compiled. -/
def kwargsNameValue : Val → Except Err (Val × Val)
  | .obj [("name", n), ("value", v)] => .ok (n, v)
  | .obj [("value", v), ("name", n)] => .ok (n, v)
  | _ => .error .typeError

/-- The `for detail_item in load_list_details(detail)` loop of
`generate_dsl`: `added` entries compile to `append(detail_item)`,
`removed` entries to `delete_if(match_name_value(**detail_item))`.
The trailing `.ok []` arm mirrors the absent `else`: the regex admits
no third operation. -/
def listItemFns : String → List Val → Except Err (List Fn)
  | _, [] => .ok []
  | op, item :: rest =>
    match (if op = "added" then .ok [Fn.append item]
           else if op = "removed" then
             match kwargsNameValue item with
             | .ok (n, v) => .ok [Fn.delete_if (.matchNameValue n v)]
             | .error e => .error e
           else .ok [] : Except Err (List Fn)) with
    | .error e => .error e
    | .ok fs =>
      match listItemFns op rest with
      | .error e => .error e
      | .ok gs => .ok (fs ++ gs)

/-- Keys of a decoded map detail (`for key in maps`). -/
def objKeys : Val → Except Err (List String)
  | .obj fields => .ok (fields.map (fun kv => kv.1))
  | _ => .error .typeError

/-- The per-action body of `generate_dsl` (migrate.py:191-210).  An
action header the regex rejects contributes nothing — silently: the
source has no `else` branch and no logging call there.  The
`valueError` arm mirrors `raise ValueError(f"Unknown operation …")`,
which is unreachable because the regex `type` group is `list|map`. -/
def actionFns (action : String) (detail : Val) : Except Err (List Fn) :=
  match matchAction action with
  | none => .ok []
  | some (ty, op) =>
    if ty = "list" then
      match load_list_details detail with
      | .error e => .error e
      | .ok items => listItemFns op items
    else if ty = "map" then
      if op = "added" then .ok [Fn.append (load_map_details detail)]
      else if op = "removed" then
        match objKeys (load_map_details detail) with
        | .error e => .error e
        | .ok ks => .ok (ks.map Fn.delete_key)
      else .ok []
    else .error (.valueError action)

/-- The `for action, detail in differences[path].items()` loop:
operations of all actions of one path concatenate, in action order,
into the path's single program. -/
def changeFns : List (String × Val) → Except Err (List Fn)
  | [] => .ok []
  | (a, d) :: rest =>
    match actionFns a d with
    | .error e => .error e
    | .ok fs =>
      match changeFns rest with
      | .error e => .error e
      | .ok gs => .ok (fs ++ gs)

/-- A decoded diff report: paths in appearance order, each with its
ordered action → decoded-detail change set. -/
abbrev DiffReport := List (String × List (String × Val))

/-- `migrate.generate_dsl`: one program per path that passes the path
gate, in path order; other paths are passed over by the `continue`
with no expression, no log line and no error.  The second component
collects `logger.warning` output — `generate_dsl` contains no such
call, so it stays empty. -/
def generate_dsl : DiffReport → Except Err (List Prog × List String)
  | [] => .ok ([], [])
  | (path, cs) :: rest =>
    if dslPathMatch path then
      match changeFns cs with
      | .error e => .error e
      | .ok fns =>
        match generate_dsl rest with
        | .error e => .error e
        | .ok (ps, ws) => .ok ((pathFns path ++ fns) :: ps, ws)
    else generate_dsl rest

def hexDigit (n : Nat) : Char :=
  if n < 10 then Char.ofNat (48 + n) else Char.ofNat (87 + n)

def uHex4 (n : Nat) : String :=
  String.mk [hexDigit (n / 4096 % 16), hexDigit (n / 256 % 16),
    hexDigit (n / 16 % 16), hexDigit (n % 16)]

/-- One character of `json.dumps` output (default `ensure_ascii`):
anything outside the printable ASCII range is `\uXXXX`-escaped, astral
characters as a surrogate pair. -/
def jsonEscapeChar (c : Char) : String :=
  if c = '"' then "\\\""
  else if c = '\\' then "\\\\"
  else if c = '\n' then "\\n"
  else if c = '\t' then "\\t"
  else if c = '\r' then "\\r"
  else if c = Char.ofNat 8 then "\\b"
  else if c = Char.ofNat 12 then "\\f"
  else if c.toNat < 32 then "\\u" ++ uHex4 c.toNat
  else if c.toNat < 127 then String.mk [c]
  else if c.toNat ≤ 65535 then "\\u" ++ uHex4 c.toNat
  else
    "\\u" ++ uHex4 (55296 + (c.toNat - 65536) / 1024) ++
      "\\u" ++ uHex4 (56320 + (c.toNat - 65536) % 1024)

def jsonStr (s : String) : String :=
  "\"" ++ String.join (s.data.map jsonEscapeChar) ++ "\""

mutual

/-- `json_compact_dumps`: `json.dumps(o, separators=(", ", ": "))`. -/
def jsonDumps : Val → String
  | .null => "null"
  | .bool b => if b then "true" else "false"
  | .int n => toString n
  | .str s => jsonStr s
  | .arr vs => "[" ++ jsonDumpsArr vs ++ "]"
  | .obj fs => "\x7b" ++ jsonDumpsObj fs ++ "\x7d"

def jsonDumpsArr : List Val → String
  | [] => ""
  | [v] => jsonDumps v
  | v :: vs => jsonDumps v ++ ", " ++ jsonDumpsArr vs

def jsonDumpsObj : List (String × Val) → String
  | [] => ""
  | [(k, v)] => jsonStr k ++ ": " ++ jsonDumps v
  | (k, v) :: fs => jsonStr k ++ ": " ++ jsonDumps v ++ ", " ++ jsonDumpsObj fs

end

def json_compact_dumps : Val → String := jsonDumps

def hex2 (n : Nat) : String :=
  String.mk [hexDigit (n / 16 % 16), hexDigit (n % 16)]

/-- Quote character Python `repr` picks for a string: single quotes
unless the text holds a single quote and no double quote. -/
def pyReprStrQuote (s : String) : Char :=
  if s.data.contains '\x27' && !s.data.contains '"' then '"' else '\x27'

def pyReprChar (q : Char) (c : Char) : String :=
  if c = '\\' then "\\\\"
  else if c = q then "\\" ++ String.mk [q]
  else if c = '\n' then "\\n"
  else if c = '\r' then "\\r"
  else if c = '\t' then "\\t"
  else if c.toNat < 32 || c.toNat = 127 then "\\x" ++ hex2 c.toNat
  else String.mk [c]

def pyReprStr (s : String) : String :=
  let q := pyReprStrQuote s
  String.mk [q] ++ String.join (s.data.map (pyReprChar q)) ++ String.mk [q]

mutual

/-- Python `repr` on decoded YAML data (containers render their
elements with `repr`, as the f-strings of `generate_yq_commands` do
through `str()` of a container). -/
def pyRepr : Val → String
  | .null => "None"
  | .bool b => if b then "True" else "False"
  | .int n => toString n
  | .str s => pyReprStr s
  | .arr vs => "[" ++ pyReprArr vs ++ "]"
  | .obj fs => "\x7b" ++ pyReprObj fs ++ "\x7d"

def pyReprArr : List Val → String
  | [] => ""
  | [v] => pyRepr v
  | v :: vs => pyRepr v ++ ", " ++ pyReprArr vs

def pyReprObj : List (String × Val) → String
  | [] => ""
  | [(k, v)] => pyReprStr k ++ ": " ++ pyRepr v
  | (k, v) :: fs => pyReprStr k ++ ": " ++ pyRepr v ++ ", " ++ pyReprObj fs

end

/-- Python `str()` as an f-string renders an interpolated value. -/
def pyStr : Val → String
  | .str s => s
  | v => pyRepr v

/-- `path_filters[-1] += suffix`. -/
def appendToLast (xs : List String) (suffix : String) : List String :=
  match xs with
  | [] => []
  | [x] => [x ++ suffix]
  | x :: rest => x :: appendToLast rest suffix

/-- The `path_filters` loop of `generate_yq_commands`: a segment whose
predecessor is in the registry turns the previous filter into an
iterator (`[]`) and adds a `select` on the identity field; any other
segment adds a plain `.segment` filter. -/
def yqFilters (parts : List String) : List String :=
  parts.enum.foldl
    (fun acc ip =>
      if ip.1 > 0 && is_tk_list_fields (parts.getD (ip.1 - 1) "") then
        appendToLast acc "[]" ++ ["select(.name == \"" ++ ip.2 ++ "\")"]
      else acc ++ ["." ++ ip.2])
    []

def stripFinalNewline (cs : List Char) : List Char :=
  match cs.reverse with
  | '\n' :: rest => rest.reverse
  | _ => cs

/-- The path gate of `generate_yq_commands`:
`re.match(r"^spec\.tasks\.(?P<task_name>[\w-]+)(\.params)?$", path)`;
`$` also accepts one trailing newline, which for the three-segment
form may ride on the task name segment. -/
def yqPathMatch (path : String) : Bool :=
  match splitOnChar '.' path with
  | ["spec", "tasks", t] =>
      let u := stripFinalNewline t.data
      !u.isEmpty && u.all isWordDashChar
  | ["spec", "tasks", t, last] =>
      !t.data.isEmpty && t.data.all isWordDashChar &&
        (last == "params" || last == "params\n")
  | _ => false

/-- `del(pipe[] | select(.name == "N" and .value == "V"))` for one
removed list entry; the entry must carry `name` and `value`, which
interpolate through `str()`. -/
def yqListRemovedExpr (pipe : String) (item : Val) : Except Err String :=
  match item with
  | .obj fields =>
    match lookupField fields "name" with
    | none => .error (.keyError "name")
    | some n =>
      match lookupField fields "value" with
      | none => .error (.keyError "value")
      | some v =>
          .ok ("del(" ++ pipe ++ "[] | select(.name == \"" ++ pyStr n ++
            "\" and .value == \"" ++ pyStr v ++ "\"))")
  | _ => .error .typeError

def yqListExprs : String → String → List Val → Except Err (List String)
  | _, _, [] => .ok []
  | pipe, op, item :: rest =>
    match (if op = "added" then
             .ok ["(" ++ pipe ++ ") += " ++ json_compact_dumps item]
           else if op = "removed" then
             match yqListRemovedExpr pipe item with
             | .ok e => .ok [e]
             | .error e => .error e
           else .ok [] : Except Err (List String)) with
    | .error e => .error e
    | .ok es =>
      match yqListExprs pipe op rest with
      | .error e => .error e
      | .ok fs => .ok (es ++ fs)

/-- The per-action body of `generate_yq_commands` (migrate.py:131-152).
Unlike `generate_dsl` it has no unreachable `raise`: an impossible
container kind would simply contribute nothing. -/
def yqActionExprs (pipe : String) (action : String) (detail : Val) :
    Except Err (List String) :=
  match matchAction action with
  | none => .ok []
  | some (ty, op) =>
    if ty = "list" then
      match load_list_details detail with
      | .error e => .error e
      | .ok items => yqListExprs pipe op items
    else if ty = "map" then
      if op = "added" then
        .ok ["(" ++ pipe ++ ") += " ++ json_compact_dumps (load_map_details detail)]
      else if op = "removed" then
        match objKeys (load_map_details detail) with
        | .error e => .error e
        | .ok ks => .ok (ks.map (fun k => "del(" ++ pipe ++ " | ." ++ k ++ ")"))
      else .ok []
    else .ok []

def yqChangeExprs (pipe : String) : List (String × Val) → Except Err (List String)
  | [] => .ok []
  | (a, d) :: rest =>
    match yqActionExprs pipe a d with
    | .error e => .error e
    | .ok es =>
      match yqChangeExprs pipe rest with
      | .error e => .error e
      | .ok fs => .ok (es ++ fs)

/-- `migrate.generate_yq_commands`: textual yq expressions, in path
order then action order; paths that fail the gate are passed over by
the `continue` with no expression, no log line and no error. -/
def generate_yq_commands : DiffReport → Except Err (List String)
  | [] => .ok []
  | (path, cs) :: rest =>
    if yqPathMatch path then
      match yqChangeExprs
          (String.intercalate " | " (yqFilters (splitOnChar '.' path))) cs with
      | .error e => .error e
      | .ok es =>
        match generate_yq_commands rest with
        | .error e => .error e
        | .ok fs => .ok (es ++ fs)
    else generate_yq_commands rest

/-! ### Concrete sample data used by witnesses and counterexamples -/

/-- A typical decoded list entry: a named parameter with a value. -/
def sampleEntry : Val := .obj [("name", .str "p"), ("value", .str "v")]

/-- A pipeline document with one task `t1` carrying an empty `params`
list. -/
def sampleDoc : Val :=
  .obj [("spec", .obj [("tasks",
    .arr [.obj [("name", .str "t1"), ("params", .arr [])]])])]

/-- `sampleDoc` after appending `sampleEntry` to the params of `t1`. -/
def sampleDocAfter : Val :=
  .obj [("spec", .obj [("tasks",
    .arr [.obj [("name", .str "t1"), ("params", .arr [sampleEntry])]])])]

/-- `sampleDocAfter` after appending `sampleEntry` once more. -/
def sampleDocTwice : Val :=
  .obj [("spec", .obj [("tasks",
    .arr [.obj [("name", .str "t1"),
      ("params", .arr [sampleEntry, sampleEntry])]])])]

/-- A program of the shape `generate_dsl` compiles for an added list
entry under `spec.tasks.t1.params`. -/
def addProg : Prog := pathFns "spec.tasks.t1.params" ++ [.append sampleEntry]

/-- The navigation program for a task that does not exist in
`sampleDoc`: its `SelectFirst` (`nth 0`) finds no match. -/
def missProg : Prog := pathFns "spec.tasks.missing.params"

/-! ### Claims -/

/-- Claim C3: for every Path, a segment whose preceding segment lies in
the registry `["params", "tasks", "workspaces"]` compiles to
`Filter(identity == segment)` + `SelectFirst` after the preceding
segment's op, and to a plain `Navigate(segment)` otherwise; in
particular `spec.tasks.init.params` compiles to exactly
Navigate(spec), Navigate(tasks), Filter(name==init), SelectFirst,
Navigate(params). -/
theorem path_compile_spec :
    (∀ (prev part : String) (rest : List String),
        pathFnsAux (some prev) (part :: rest) =
          (if is_tk_list_fields prev
           then [.if_matches (.matchTask part), .nth 0]
           else [.with_path [part] none]) ++ pathFnsAux (some part) rest) ∧
    pathFns "spec.tasks.init.params" =
      [.with_path ["spec"] none, .with_path ["tasks"] none,
       .if_matches (.matchTask "init"), .nth 0, .with_path ["params"] none] := by
  exact ⟨fun prev part rest => rfl, by decide⟩

/-- Counterexample to claim C2: the first Navigate of the program the
combinator backend compiles for `spec.tasks.init.params`, run against
a document lacking the `spec` field, raises `KeyError` — no empty
container is inserted (the document carried by the error is still
`{}`) and navigation fails. -/
theorem navigate_missing_field_cex :
    applyProg (pathFns "spec.tasks.init.params") (.obj []) =
      .error (.keyError "spec", .obj []) := by decide

/-- Claim C2 as amended: every Navigate step the combinator backend
compiles carries `default=None`, so an absent field makes the step
fail with `KeyError`, the document unchanged; the empty-container
insertion of `with_path` happens only under an explicitly supplied
non-`None` default, which `generate_dsl` never passes. -/
theorem navigate_no_default :
    (∀ (path : String) (parts : List String) (d : Option Val),
        Fn.with_path parts d ∈ pathFns path → d = none) ∧
    (∀ (part : String) (fields : List (String × Val)) (doc : Val)
        (p : List PathStep),
        getAt doc p = some (.obj fields) → lookupField fields part = none →
        Fn.run (.with_path [part] none) ⟨doc, .ref p⟩ =
          .error (.keyError part, doc)) ∧
    (∀ (part : String) (d : Val) (fields : List (String × Val)) (doc : Val)
        (p : List PathStep),
        getAt doc p = some (.obj fields) → lookupField fields part = none →
        Fn.run (.with_path [part] (some d)) ⟨doc, .ref p⟩ =
          .ok ⟨setAt doc p (.obj (fields ++ [(part, d)])),
               .ref (p ++ [.fld part])⟩) := by
  refine ⟨?_, ?_, ?_⟩
  · intro path parts d hmem
    suffices hall : ∀ (prev : Option String) (segs : List String),
        Fn.with_path parts d ∈ pathFnsAux prev segs → d = none by
      exact hall none (splitOnChar '.' path) hmem
    intro prev segs
    induction segs generalizing prev with
    | nil => intro h; cases h
    | cons part rest ih =>
      intro h
      simp only [pathFnsAux, List.mem_append] at h
      rcases h with h | h
      · cases prev with
        | none => simp_all
        | some q =>
          by_cases hq : is_tk_list_fields q <;> simp_all
      · exact ih (some part) h
  · intro part fields doc p hget hlk
    simp [Fn.run, runWithPath, hget, hlk]
  · intro part d fields doc p hget hlk
    simp [Fn.run, runWithPath, hget, hlk]

/-- Witness for `navigate_no_default`: the compiled program for
`spec.tasks.init.params` contains `with_path ["spec"] none`, and that
step fails with `KeyError` on the empty document. -/
theorem navigate_no_default_witness :
    (Fn.with_path ["spec"] none ∈ pathFns "spec.tasks.init.params") ∧
    Fn.run (.with_path ["spec"] none) ⟨Val.obj [], .ref []⟩ =
      .error (.keyError "spec", .obj []) :=
  ⟨by decide, navigate_no_default.2.1 "spec" [] (.obj []) [] rfl rfl⟩

/-- Claim C8: applying a program containing an Append twice is not a
no-op — the program `generate_dsl` builds for adding one entry to
`spec.tasks.t1.params` duplicates the entry on re-application. -/
theorem append_not_idempotent :
    applyProg addProg sampleDoc = .ok sampleDocAfter ∧
    applyProg addProg sampleDocAfter = .ok sampleDocTwice ∧
    sampleDocTwice ≠ sampleDocAfter := ⟨by decide, by decide, by decide⟩

/-- Claim C1: when a compiled program fails (its application returns an
error without further mutation, as a failed `SelectFirst` does during
navigation), earlier programs' mutations to the shared document are
retained and the run ends — later programs never execute, and no
rollback happens. -/
theorem migrate_partial_apply (ps : List Prog) (q : Prog) (rs : List Prog)
    (d0 d : Val) (e : Err)
    (hps : runMigrations ps d0 = (d, none))
    (hq : applyProg q d = .error (e, d)) :
    runMigrations (ps ++ q :: rs) d0 = (d, some e) := by
  induction ps generalizing d0 with
  | nil =>
    simp only [runMigrations, Prod.mk.injEq] at hps
    obtain ⟨rfl, -⟩ := hps
    simp [runMigrations, hq]
  | cons m ms ih =>
    simp only [List.cons_append, runMigrations] at hps ⊢
    cases hap : applyProg m d0 with
    | ok d2 =>
      rw [hap] at hps
      exact ih d2 hps
    | error ed =>
      rw [hap] at hps
      simp at hps

/-- Witness for `migrate_partial_apply`: an add-entry program commits a
mutation, a second program fails on a missing task, and the run of
`[addProg, missProg, addProg]` ends with the first program's mutation
retained and the `IndexError` of the failed `SelectFirst` reported;
the third program never runs. -/
theorem migrate_partial_apply_witness :
    runMigrations [addProg] sampleDoc = (sampleDocAfter, none) ∧
    applyProg missProg sampleDocAfter =
      .error (.indexError 0 0, sampleDocAfter) ∧
    runMigrations [addProg, missProg, addProg] sampleDoc =
      (sampleDocAfter, some (.indexError 0 0)) :=
  ⟨by decide, by decide,
   migrate_partial_apply [addProg] missProg [addProg] sampleDoc sampleDocAfter
     (.indexError 0 0) (by decide) (by decide)⟩

/-- A decoded entry carrying exactly the identity and value fields. -/
def entryNameValue (n v : Val) : Val := .obj [("name", n), ("value", v)]

theorem filterOutM_append_match (pr : Pred) (e : Val) (l : List Val)
    (hl : ∀ x ∈ l, Pred.eval pr x = .ok false)
    (he : Pred.eval pr e = .ok true) :
    filterOutM pr (l ++ [e]) = .ok l := by
  induction l with
  | nil => simp [filterOutM, he]
  | cons x xs ih =>
    have hx := hl x (by simp)
    have hxs := ih (fun y hy => hl y (by simp [hy]))
    simp [filterOutM, hx, hxs]

/-- Counterexample to claim C4: against a container that already holds
an entry equal to E, compiling and applying "add E" then "remove E"
does not restore the container — `delete_if` removes every match, the
pre-existing entry included, leaving the params list empty. -/
theorem add_remove_roundtrip_cex :
    generate_dsl
        [("spec.tasks.t1.params",
          [("+ one list entry added:", .arr [sampleEntry]),
           ("- one list entry removed:", .arr [sampleEntry])])] =
      .ok ([pathFns "spec.tasks.t1.params" ++
        [.append sampleEntry,
         .delete_if (.matchNameValue (.str "p") (.str "v"))]], []) ∧
    runMigrations
        [pathFns "spec.tasks.t1.params" ++
          [.append sampleEntry,
           .delete_if (.matchNameValue (.str "p") (.str "v"))]]
        sampleDocAfter =
      (sampleDoc, none) ∧
    sampleDoc ≠ sampleDocAfter := ⟨by decide, by decide, by decide⟩

/-- Claim C4 as amended: provided no pre-existing entry of the
container matches E's identity and value, the operations compiled for
"add entry E" followed by those for "remove entry E" restore the
container exactly, untouched entries in their original order. -/
theorem add_remove_roundtrip (l : List Val) (n v : Val)
    (hl : ∀ x ∈ l, Pred.eval (.matchNameValue n v) x = .ok false) :
    changeFns [("+ one list entry added:", .arr [entryNameValue n v]),
               ("- one list entry removed:", .arr [entryNameValue n v])] =
      .ok [.append (entryNameValue n v), .delete_if (.matchNameValue n v)] ∧
    applyFns [.append (entryNameValue n v), .delete_if (.matchNameValue n v)]
        ⟨.arr l, .ref []⟩ = .ok ⟨.arr l, .ref []⟩ := by
  constructor
  · rfl
  · have he : Pred.eval (.matchNameValue n v) (entryNameValue n v) = .ok true := by
      simp [Pred.eval, entryNameValue, lookupField, Val.beq_refl]
    have hfo := filterOutM_append_match (.matchNameValue n v)
      (entryNameValue n v) l hl he
    simp [applyFns, Fn.run, getAt, setAt, hfo]

/-- Witness for `add_remove_roundtrip`: a container with one
non-matching entry round-trips through add + remove of `p = v`. -/
theorem add_remove_roundtrip_witness :
    (∀ x ∈ [Val.obj [("name", .str "q"), ("value", .str "w")]],
        Pred.eval (.matchNameValue (.str "p") (.str "v")) x = .ok false) ∧
    applyFns [.append (entryNameValue (.str "p") (.str "v")),
              .delete_if (.matchNameValue (.str "p") (.str "v"))]
        ⟨.arr [Val.obj [("name", .str "q"), ("value", .str "w")]], .ref []⟩ =
      .ok ⟨.arr [Val.obj [("name", .str "q"), ("value", .str "w")]], .ref []⟩ :=
  ⟨by decide,
   (add_remove_roundtrip [Val.obj [("name", .str "q"), ("value", .str "w")]]
     (.str "p") (.str "v") (by decide)).2⟩

/-- Counterexample to claim C5: an action header the classifier
rejects is skipped with NO warning — the compile succeeds, the
unmatched action contributes no operations, and the collected warning
stream (second component) is empty, where the claim requires a
warning to be emitted. -/
theorem unsupported_action_silent_cex :
    matchAction "~ one scalar entry changed:" = none ∧
    generate_dsl [("spec.tasks.clone.params",
        [("~ one scalar entry changed:", .str "x")])] =
      .ok ([pathFns "spec.tasks.clone.params"], []) := ⟨by decide, by decide⟩

/-- Claim C5 as amended: an ActionDescriptor the shape regex rejects
is skipped silently — it compiles to no operations, removing it from a
change set leaves the compiled operations unchanged, it never aborts
the run, and `generate_dsl` emits no warning for it (or for anything
else: every successful run's warning stream is empty). -/
theorem unsupported_action_skipped :
    (∀ (a : String) (d : Val), matchAction a = none → actionFns a d = .ok []) ∧
    (∀ (cs1 cs2 : List (String × Val)) (a : String) (d : Val),
        matchAction a = none →
        changeFns (cs1 ++ (a, d) :: cs2) = changeFns (cs1 ++ cs2)) ∧
    (∀ (diffs : DiffReport) (r : List Prog × List String),
        generate_dsl diffs = .ok r → r.2 = []) := by
  have h1 : ∀ (a : String) (d : Val), matchAction a = none →
      actionFns a d = .ok [] := by
    intro a d h
    simp [actionFns, h]
  refine ⟨h1, ?_, ?_⟩
  · intro cs1 cs2 a d h
    induction cs1 with
    | nil =>
      simp only [List.nil_append, changeFns, h1 a d h]
      cases changeFns cs2 <;> simp
    | cons x xs ih =>
      obtain ⟨xa, xd⟩ := x
      simp only [List.cons_append, changeFns, List.append_eq, ih]
  · intro diffs
    induction diffs with
    | nil =>
      intro r h
      simp only [generate_dsl] at h
      cases h
      rfl
    | cons pc rest ih =>
      obtain ⟨path, cs⟩ := pc
      intro r h
      simp only [generate_dsl] at h
      by_cases hm : dslPathMatch path
      · rw [if_pos hm] at h
        cases hc : changeFns cs with
        | error e => rw [hc] at h; cases h
        | ok fns =>
          rw [hc] at h
          cases hr : generate_dsl rest with
          | error e => rw [hr] at h; cases h
          | ok pw =>
            obtain ⟨ps, ws⟩ := pw
            rw [hr] at h
            cases h
            exact ih (ps, ws) hr
      · rw [if_neg hm] at h
        exact ih r h

/-- Witness for `unsupported_action_skipped`: the scalar-change header
is rejected and contributes no operations. -/
theorem unsupported_action_skipped_witness :
    matchAction "~ one scalar entry changed:" = none ∧
    actionFns "~ one scalar entry changed:" (.str "x") = .ok [] :=
  ⟨by decide, unsupported_action_skipped.1 _ _ (by decide)⟩

/-- Claim C6: each backend compiles operations only for paths passing
its hard-coded gate (`spec.tasks.<task>.params` for the combinator
backend, `spec.tasks.<task>` or `spec.tasks.<task>.params` for the
query-expression backend): dropping the non-matching paths from a diff
report changes nothing, and a report with no matching path yields no
programs, no expressions, no warning and no error. -/
theorem hardcoded_path_gate :
    (∀ diffs : DiffReport,
        generate_dsl diffs =
          generate_dsl (diffs.filter (fun pc => dslPathMatch pc.1))) ∧
    (∀ diffs : DiffReport,
        generate_yq_commands diffs =
          generate_yq_commands (diffs.filter (fun pc => yqPathMatch pc.1))) ∧
    (∀ diffs : DiffReport,
        (∀ pc ∈ diffs, dslPathMatch pc.1 = false) →
        generate_dsl diffs = .ok ([], [])) ∧
    (∀ diffs : DiffReport,
        (∀ pc ∈ diffs, yqPathMatch pc.1 = false) →
        generate_yq_commands diffs = .ok []) := by
  have h1 : ∀ diffs : DiffReport,
      generate_dsl diffs =
        generate_dsl (diffs.filter (fun pc => dslPathMatch pc.1)) := by
    intro diffs
    induction diffs with
    | nil => rfl
    | cons pc rest ih =>
      obtain ⟨path, cs⟩ := pc
      cases h : dslPathMatch path with
      | false => simpa [generate_dsl, List.filter_cons, h] using ih
      | true =>
        simp only [generate_dsl, List.filter_cons, h, if_true]
        rw [ih]
  have h2 : ∀ diffs : DiffReport,
      generate_yq_commands diffs =
        generate_yq_commands (diffs.filter (fun pc => yqPathMatch pc.1)) := by
    intro diffs
    induction diffs with
    | nil => rfl
    | cons pc rest ih =>
      obtain ⟨path, cs⟩ := pc
      cases h : yqPathMatch path with
      | false => simpa [generate_yq_commands, List.filter_cons, h] using ih
      | true =>
        simp only [generate_yq_commands, List.filter_cons, h, if_true]
        rw [ih]
  refine ⟨h1, h2, ?_, ?_⟩
  · intro diffs hall
    rw [h1 diffs, List.filter_eq_nil_iff.mpr (by simpa using hall)]
    rfl
  · intro diffs hall
    rw [h2 diffs, List.filter_eq_nil_iff.mpr (by simpa using hall)]
    rfl

/-- Witness for `hardcoded_path_gate`: a diff under `metadata.labels`
passes neither gate and compiles to nothing in both backends. -/
theorem hardcoded_path_gate_witness :
    (∀ pc ∈ ([("metadata.labels",
        [("+ one map entry added:", Val.obj [("hello", .str "world")])])] :
        DiffReport), dslPathMatch pc.1 = false ∧ yqPathMatch pc.1 = false) ∧
    generate_dsl [("metadata.labels",
        [("+ one map entry added:", Val.obj [("hello", .str "world")])])] =
      .ok ([], []) ∧
    generate_yq_commands [("metadata.labels",
        [("+ one map entry added:", Val.obj [("hello", .str "world")])])] =
      .ok [] :=
  ⟨by decide,
   hardcoded_path_gate.2.2.1 _ (by decide),
   hardcoded_path_gate.2.2.2 _ (by decide)⟩

theorem matchingElems_ok (pr : Pred) (p : List PathStep) :
    ∀ (ws : List Val) (i : Nat),
      (∀ x ∈ ws, ∃ b, Pred.eval pr x = .ok b) →
      ∃ es, matchingElems pr p i ws = .ok es := by
  intro ws
  induction ws with
  | nil => exact fun i _ => ⟨[], rfl⟩
  | cons w ws ih =>
    intro i hall
    obtain ⟨b, hb⟩ := hall w (by simp)
    obtain ⟨es, hes⟩ := ih (i + 1) (fun y hy => hall y (by simp [hy]))
    exact ⟨if b then .eref (p ++ [.idx i]) :: es else es,
      by simp only [matchingElems, hb, hes]⟩

theorem matchingElems_first (pr : Pred) (p : List PathStep) :
    ∀ (us : List Val) (w : Val) (ws : List Val) (i : Nat),
      (∀ x ∈ us, Pred.eval pr x = .ok false) →
      Pred.eval pr w = .ok true →
      (∀ x ∈ ws, ∃ b, Pred.eval pr x = .ok b) →
      ∃ es, matchingElems pr p i (us ++ w :: ws) =
        .ok (.eref (p ++ [.idx (i + us.length)]) :: es) := by
  intro us
  induction us with
  | nil =>
    intro w ws i _ hw hws
    obtain ⟨es, hes⟩ := matchingElems_ok pr p ws (i + 1) hws
    exact ⟨es, by simp [matchingElems, hw, hes]⟩
  | cons u us ih =>
    intro w ws i hus hw hws
    have hu := hus u (by simp)
    obtain ⟨es, hes⟩ :=
      ih w ws (i + 1) (fun y hy => hus y (by simp [hy])) hw hws
    rw [show i + 1 + us.length = i + (us.length + 1) from by omega] at hes
    refine ⟨es, ?_⟩
    simp only [List.cons_append, matchingElems, hu, List.length_cons,
      List.append_eq]
    rw [hes]
    simp

/-- Claim C7: when several elements of a container match on identity,
`Filter` followed by `SelectFirst` resolves, without error, to the
first matching element in container order (here the element at index
`us.length`, after the non-matching block `us`, whatever further
matches `ws` holds). -/
theorem select_first_duplicates (pr : Pred) (doc : Val) (p : List PathStep)
    (us : List Val) (w : Val) (ws : List Val)
    (hget : getAt doc p = some (.arr (us ++ w :: ws)))
    (hus : ∀ x ∈ us, Pred.eval pr x = .ok false)
    (hw : Pred.eval pr w = .ok true)
    (hws : ∀ x ∈ ws, ∃ b, Pred.eval pr x = .ok b) :
    applyFns [.if_matches pr, .nth 0] ⟨doc, .ref p⟩ =
      .ok ⟨doc, .ref (p ++ [.idx us.length])⟩ := by
  obtain ⟨es, hes⟩ := matchingElems_first pr p us w ws 0 hus hw hws
  rw [Nat.zero_add] at hes
  simp [applyFns, Fn.run, hget, hes]

/-- Witness for `select_first_duplicates`: two elements named `p`;
selection picks the first (index 1), ignoring the duplicate. -/
theorem select_first_duplicates_witness :
    Pred.eval (.matchTask "p") (.obj [("name", .str "p"), ("value", .str "1")]) =
      .ok true ∧
    applyFns [.if_matches (.matchTask "p"), .nth 0]
        ⟨.arr [.obj [("name", .str "a")],
               .obj [("name", .str "p"), ("value", .str "1")],
               .obj [("name", .str "p"), ("value", .str "2")]], .ref []⟩ =
      .ok ⟨.arr [.obj [("name", .str "a")],
                 .obj [("name", .str "p"), ("value", .str "1")],
                 .obj [("name", .str "p"), ("value", .str "2")]],
           .ref [.idx 1]⟩ := by
  refine ⟨by decide, ?_⟩
  have h := select_first_duplicates (.matchTask "p")
    (.arr [.obj [("name", .str "a")],
           .obj [("name", .str "p"), ("value", .str "1")],
           .obj [("name", .str "p"), ("value", .str "2")]]) []
    [.obj [("name", .str "a")]]
    (.obj [("name", .str "p"), ("value", .str "1")])
    [.obj [("name", .str "p"), ("value", .str "2")]]
    (by decide) (by decide) (by decide)
    (by
      intro x hx
      simp only [List.mem_singleton] at hx
      subst hx
      exact ⟨true, by decide⟩)
  simpa using h

theorem replicate_count_append_drop (cs : List Char) :
    List.replicate (countLeadingSpacesData cs) ' ' ++
      cs.drop (countLeadingSpacesData cs) = cs := by
  induction cs with
  | nil => rfl
  | cons c cs ih =>
    by_cases h : c = ' '
    · subst h
      rw [show countLeadingSpacesData (' ' :: cs) = countLeadingSpacesData cs + 1
        from by simp [countLeadingSpacesData]]
      rw [List.replicate_succ, List.drop_succ_cons, List.cons_append, ih]
    · simp [countLeadingSpacesData, h]

theorem string_mk_data (s : String) : String.mk s.data = s := rfl

/-- Claim C10: the diff-text decoder ignores blank lines (dropping
them from the input changes nothing), and re-emits every non-blank
line whose leading-space count is neither 0 nor 2 verbatim as a
continuation of the current action block; the per-line classification
is total — no indentation makes it crash. -/
theorem decoder_indent_recovery :
    (∀ text : String,
        convert_difference_lines text =
          (((splitOnChar '\n' text).filter
              (fun line => !(rstrip line).data.isEmpty)).map convertLine).flatten) ∧
    (∀ line : String, rstrip line = "" → convertLine line = []) ∧
    (∀ line : String, rstrip line ≠ "" →
        count_leading_spaces (rstrip line) ≠ 0 →
        count_leading_spaces (rstrip line) ≠ 2 →
        convertLine line = [rstrip line]) := by
  have hblank : ∀ line : String, (rstrip line).data.isEmpty = true →
      convertLine line = [] := by
    intro line h
    rw [List.isEmpty_iff] at h
    simp [convertLine, h]
  refine ⟨?_, ?_, ?_⟩
  · intro text
    show ((splitOnChar '\n' text).map convertLine).flatten = _
    induction splitOnChar '\n' text with
    | nil => rfl
    | cons l ls ih =>
      cases h : (rstrip l).data.isEmpty with
      | true => simp [hblank l h, List.filter_cons, h, ih]
      | false => simp [List.filter_cons, h, ih]
  · intro line h
    have : (rstrip line).data.isEmpty = true := by rw [h]; rfl
    exact hblank line this
  · intro line h0 hn0 hn2
    have hdata : ¬(rstrip line).data = [] := by
      intro hd
      apply h0
      cases hrs : rstrip line with
      | mk d =>
        rw [hrs] at hd
        simp only at hd
        subst hd
        rfl
    simp only [convertLine, count_leading_spaces] at hn0 hn2 ⊢
    rw [if_neg hdata, if_neg hn0, if_neg hn2]
    rw [replicate_count_append_drop]

/-- Witness for `decoder_indent_recovery`: a 3-space-indented line is
re-emitted verbatim (after trailing-whitespace strip). -/
theorem decoder_indent_recovery_witness :
    (rstrip "   xyz  " = "   xyz" ∧
      count_leading_spaces (rstrip "   xyz  ") = 3) ∧
    convertLine "   xyz  " = ["   xyz"] :=
  ⟨⟨by decide, by decide⟩,
   by
     have h := decoder_indent_recovery.2.2 "   xyz  "
       (by decide) (by decide) (by decide)
     simpa using h⟩

/-! ### A mutable-heap model of `fn.append`

`fn.append` runs `obj.append(copy.deepcopy(to_add))`: the captured
source entry is a mutable Python object, and the deep copy exists to
keep later in-place mutation of that source (or of anything else
pre-existing) from reaching the elements already inserted.  Python
objects are modelled as cells addressed by heap position; `deepcopy`
reads the source and allocates an isomorphic tree of fresh cells. -/

abbrev Addr := Nat

/-- One mutable cell of the object heap: a scalar, or a container
holding references to other cells. -/
inductive Cell where
  | cnull
  | cbool (b : Bool)
  | cint (n : Int)
  | cstr (s : String)
  | carr (elems : List Addr)
  | cobj (fields : List (String × Addr))
  deriving DecidableEq

abbrev Heap := List Cell

mutual

/-- Allocate the tree of fresh cells `copy.deepcopy` builds for a
value: cells are appended at the end of the heap, the root's address
is returned. -/
def allocVal : Val → Heap → Heap × Addr
  | .null, h => (h ++ [.cnull], h.length)
  | .bool b, h => (h ++ [.cbool b], h.length)
  | .int n, h => (h ++ [.cint n], h.length)
  | .str s, h => (h ++ [.cstr s], h.length)
  | .arr vs, h =>
      ((allocArr vs h).1 ++ [.carr (allocArr vs h).2], (allocArr vs h).1.length)
  | .obj fs, h =>
      ((allocObj fs h).1 ++ [.cobj (allocObj fs h).2], (allocObj fs h).1.length)

def allocArr : List Val → Heap → Heap × List Addr
  | [], h => (h, [])
  | v :: vs, h =>
      ((allocArr vs (allocVal v h).1).1,
       (allocVal v h).2 :: (allocArr vs (allocVal v h).1).2)

def allocObj : List (String × Val) → Heap → Heap × List (String × Addr)
  | [], h => (h, [])
  | (k, v) :: fs, h =>
      ((allocObj fs (allocVal v h).1).1,
       (k, (allocVal v h).2) :: (allocObj fs (allocVal v h).1).2)

end

/-- Sequence an option-producing function over a list (the effect of
decoding each element of a container). -/
def mapO {α β : Type} (f : α → Option β) : List α → Option (List β)
  | [] => some []
  | x :: xs =>
    match f x with
    | some y =>
      match mapO f xs with
      | some ys => some (y :: ys)
      | none => none
    | none => none

/-- Fuel-bounded decoding of the value a heap address denotes. -/
def readVal : Nat → Heap → Addr → Option Val
  | 0, _, _ => none
  | fuel + 1, h, a =>
    match h[a]? with
    | some .cnull => some .null
    | some (.cbool b) => some (.bool b)
    | some (.cint n) => some (.int n)
    | some (.cstr s) => some (.str s)
    | some (.carr as) =>
      match mapO (fun a2 => readVal fuel h a2) as with
      | some vs => some (.arr vs)
      | none => none
    | some (.cobj fs) =>
      match mapO (fun ka : String × Addr =>
          (readVal fuel h ka.2).map (fun v => (ka.1, v))) fs with
      | some gs => some (.obj gs)
      | none => none
    | none => none

mutual

/-- Fuel sufficient to read back a value of this shape. -/
def depthVal : Val → Nat
  | .null => 1
  | .bool _ => 1
  | .int _ => 1
  | .str _ => 1
  | .arr vs => depthArr vs + 1
  | .obj fs => depthObj fs + 1

def depthArr : List Val → Nat
  | [] => 0
  | v :: vs => max (depthVal v) (depthArr vs)

def depthObj : List (String × Val) → Nat
  | [] => 0
  | (_, v) :: fs => max (depthVal v) (depthObj fs)

end

mutual

theorem allocVal_extends : ∀ (v : Val) (h : Heap),
    ∃ t, (allocVal v h).1 = h ++ t
  | .null, _ => ⟨[.cnull], rfl⟩
  | .bool b, _ => ⟨[.cbool b], rfl⟩
  | .int n, _ => ⟨[.cint n], rfl⟩
  | .str s, _ => ⟨[.cstr s], rfl⟩
  | .arr vs, h => by
      obtain ⟨t, ht⟩ := allocArr_extends vs h
      exact ⟨t ++ [.carr (allocArr vs h).2], by simp [allocVal, ht]⟩
  | .obj fs, h => by
      obtain ⟨t, ht⟩ := allocObj_extends fs h
      exact ⟨t ++ [.cobj (allocObj fs h).2], by simp [allocVal, ht]⟩

theorem allocArr_extends : ∀ (vs : List Val) (h : Heap),
    ∃ t, (allocArr vs h).1 = h ++ t
  | [], h => ⟨[], by simp [allocArr]⟩
  | v :: vs, h => by
      obtain ⟨t1, h1⟩ := allocVal_extends v h
      obtain ⟨t2, h2⟩ := allocArr_extends vs (allocVal v h).1
      exact ⟨t1 ++ t2, by
        show (allocArr vs (allocVal v h).1).1 = _
        rw [h2, h1, List.append_assoc]⟩

theorem allocObj_extends : ∀ (fs : List (String × Val)) (h : Heap),
    ∃ t, (allocObj fs h).1 = h ++ t
  | [], h => ⟨[], by simp [allocObj]⟩
  | (k, v) :: fs, h => by
      obtain ⟨t1, h1⟩ := allocVal_extends v h
      obtain ⟨t2, h2⟩ := allocObj_extends fs (allocVal v h).1
      exact ⟨t1 ++ t2, by
        show (allocObj fs (allocVal v h).1).1 = _
        rw [h2, h1, List.append_assoc]⟩

end

theorem allocVal_le_length (v : Val) (h : Heap) :
    h.length ≤ (allocVal v h).1.length := by
  obtain ⟨t, ht⟩ := allocVal_extends v h
  simp [ht]

theorem allocArr_le_length (vs : List Val) (h : Heap) :
    h.length ≤ (allocArr vs h).1.length := by
  obtain ⟨t, ht⟩ := allocArr_extends vs h
  simp [ht]

theorem allocObj_le_length (fs : List (String × Val)) (h : Heap) :
    h.length ≤ (allocObj fs h).1.length := by
  obtain ⟨t, ht⟩ := allocObj_extends fs h
  simp [ht]

theorem getElem?_append_lo {α : Type} (l1 l2 : List α) (i : Nat)
    (hi : i < l1.length) : (l1 ++ l2)[i]? = l1[i]? := by
  rw [List.getElem?_append, if_pos hi]

theorem allocVal_getElem_low (v : Val) (h : Heap) (i : Nat)
    (hi : i < h.length) : (allocVal v h).1[i]? = h[i]? := by
  obtain ⟨t, ht⟩ := allocVal_extends v h
  rw [ht, getElem?_append_lo _ _ _ hi]

theorem allocArr_getElem_low (vs : List Val) (h : Heap) (i : Nat)
    (hi : i < h.length) : (allocArr vs h).1[i]? = h[i]? := by
  obtain ⟨t, ht⟩ := allocArr_extends vs h
  rw [ht, getElem?_append_lo _ _ _ hi]

theorem allocObj_getElem_low (fs : List (String × Val)) (h : Heap) (i : Nat)
    (hi : i < h.length) : (allocObj fs h).1[i]? = h[i]? := by
  obtain ⟨t, ht⟩ := allocObj_extends fs h
  rw [ht, getElem?_append_lo _ _ _ hi]

theorem getElem?_concat_self {α : Type} (xs : List α) (x : α) :
    (xs ++ [x])[xs.length]? = some x := by
  rw [List.getElem?_append_right (Nat.le_refl _)]
  simp

mutual

/-- Read-back, stable under any later change outside the freshly
allocated region: reading the root of an allocation from any heap that
agrees with the allocation result on the fresh addresses returns the
allocated value. -/
theorem readVal_alloc : ∀ (v : Val) (h hB : Heap) (fuel : Nat),
    depthVal v ≤ fuel →
    (∀ i, h.length ≤ i → i < (allocVal v h).1.length →
      hB[i]? = (allocVal v h).1[i]?) →
    readVal fuel hB (allocVal v h).2 = some v
  | .null, h, hB, fuel, hd, hagree => by
      match fuel, hd with
      | fuel + 1, _ =>
        have hroot : hB[h.length]? = some Cell.cnull := by
          rw [hagree h.length (Nat.le_refl _) (by simp [allocVal])]
          exact getElem?_concat_self h Cell.cnull
        simp [readVal, allocVal, hroot]
  | .bool b, h, hB, fuel, hd, hagree => by
      match fuel, hd with
      | fuel + 1, _ =>
        have hroot : hB[h.length]? = some (Cell.cbool b) := by
          rw [hagree h.length (Nat.le_refl _) (by simp [allocVal])]
          exact getElem?_concat_self h (Cell.cbool b)
        simp [readVal, allocVal, hroot]
  | .int n, h, hB, fuel, hd, hagree => by
      match fuel, hd with
      | fuel + 1, _ =>
        have hroot : hB[h.length]? = some (Cell.cint n) := by
          rw [hagree h.length (Nat.le_refl _) (by simp [allocVal])]
          exact getElem?_concat_self h (Cell.cint n)
        simp [readVal, allocVal, hroot]
  | .str s, h, hB, fuel, hd, hagree => by
      match fuel, hd with
      | fuel + 1, _ =>
        have hroot : hB[h.length]? = some (Cell.cstr s) := by
          rw [hagree h.length (Nat.le_refl _) (by simp [allocVal])]
          exact getElem?_concat_self h (Cell.cstr s)
        simp [readVal, allocVal, hroot]
  | .arr vs, h, hB, fuel, hd, hagree => by
      match fuel, hd with
      | fuel + 1, hd =>
        have hdvs : depthArr vs ≤ fuel := by
          have : depthArr vs + 1 ≤ fuel + 1 := hd
          omega
        have hroot : hB[(allocArr vs h).1.length]? =
            some (Cell.carr (allocArr vs h).2) := by
          rw [hagree (allocArr vs h).1.length (allocArr_le_length vs h)
            (by simp [allocVal])]
          show ((allocArr vs h).1 ++
            [Cell.carr (allocArr vs h).2])[(allocArr vs h).1.length]? = _
          exact getElem?_concat_self _ _
        have hmap := readArr_alloc vs h hB fuel hdvs (by
          intro i hlo hhi
          rw [hagree i hlo (by
            simp only [allocVal, List.length_append, List.length_cons,
              List.length_nil]
            omega)]
          show ((allocArr vs h).1 ++ [Cell.carr (allocArr vs h).2])[i]? = _
          rw [getElem?_append_lo _ _ _ hhi])
        simp [readVal, allocVal, hroot, hmap]
  | .obj fs, h, hB, fuel, hd, hagree => by
      match fuel, hd with
      | fuel + 1, hd =>
        have hdfs : depthObj fs ≤ fuel := by
          have : depthObj fs + 1 ≤ fuel + 1 := hd
          omega
        have hroot : hB[(allocObj fs h).1.length]? =
            some (Cell.cobj (allocObj fs h).2) := by
          rw [hagree (allocObj fs h).1.length (allocObj_le_length fs h)
            (by simp [allocVal])]
          show ((allocObj fs h).1 ++
            [Cell.cobj (allocObj fs h).2])[(allocObj fs h).1.length]? = _
          exact getElem?_concat_self _ _
        have hmap := readObj_alloc fs h hB fuel hdfs (by
          intro i hlo hhi
          rw [hagree i hlo (by
            simp only [allocVal, List.length_append, List.length_cons,
              List.length_nil]
            omega)]
          show ((allocObj fs h).1 ++ [Cell.cobj (allocObj fs h).2])[i]? = _
          rw [getElem?_append_lo _ _ _ hhi])
        simp [readVal, allocVal, hroot, hmap]

theorem readArr_alloc : ∀ (vs : List Val) (h hB : Heap) (fuel : Nat),
    depthArr vs ≤ fuel →
    (∀ i, h.length ≤ i → i < (allocArr vs h).1.length →
      hB[i]? = (allocArr vs h).1[i]?) →
    mapO (fun a2 => readVal fuel hB a2) (allocArr vs h).2 = some vs
  | [], h, hB, fuel, _, _ => by simp [allocArr, mapO]
  | v :: vs, h, hB, fuel, hd, hagree => by
      have hdv : depthVal v ≤ fuel := le_trans (le_max_left _ _) hd
      have hdvs : depthArr vs ≤ fuel := le_trans (le_max_right _ _) hd
      have h1 := readVal_alloc v h hB fuel hdv (by
        intro i hlo hhi
        rw [hagree i hlo (lt_of_lt_of_le hhi
          (by simp only [allocArr]; exact allocArr_le_length vs (allocVal v h).1))]
        show (allocArr vs (allocVal v h).1).1[i]? = _
        rw [allocArr_getElem_low vs (allocVal v h).1 i hhi])
      have h2 := readArr_alloc vs (allocVal v h).1 hB fuel hdvs (by
        intro i hlo hhi
        exact hagree i (le_trans (allocVal_le_length v h) hlo) hhi)
      simp [allocArr, mapO, h1, h2]

theorem readObj_alloc : ∀ (fs : List (String × Val)) (h hB : Heap) (fuel : Nat),
    depthObj fs ≤ fuel →
    (∀ i, h.length ≤ i → i < (allocObj fs h).1.length →
      hB[i]? = (allocObj fs h).1[i]?) →
    mapO (fun ka : String × Addr =>
        (readVal fuel hB ka.2).map (fun v => (ka.1, v))) (allocObj fs h).2 =
      some fs
  | [], h, hB, fuel, _, _ => by simp [allocObj, mapO]
  | (k, v) :: fs, h, hB, fuel, hd, hagree => by
      have hdv : depthVal v ≤ fuel := le_trans (le_max_left _ _) hd
      have hdfs : depthObj fs ≤ fuel := le_trans (le_max_right _ _) hd
      have h1 := readVal_alloc v h hB fuel hdv (by
        intro i hlo hhi
        rw [hagree i hlo (lt_of_lt_of_le hhi
          (by simp only [allocObj]; exact allocObj_le_length fs (allocVal v h).1))]
        show (allocObj fs (allocVal v h).1).1[i]? = _
        rw [allocObj_getElem_low fs (allocVal v h).1 i hhi])
      have h2 := readObj_alloc fs (allocVal v h).1 hB fuel hdfs (by
        intro i hlo hhi
        exact hagree i (le_trans (allocVal_le_length v h) hlo) hhi)
      simp [allocObj, mapO, h1, h2]

end

/-- In-place mutation of one heap cell. -/
def writeCell (h : Heap) (a : Addr) (c : Cell) : Heap := h.set a c

/-- `fn.append` over the heap: decode the captured source entry, let
`copy.deepcopy` allocate a fresh copy, and push the copy's root onto
the target list cell. -/
def heapAppend (fuel : Nat) (target src : Addr) (h : Heap) : Option Heap :=
  match readVal fuel h src, h[target]? with
  | some v, some (.carr as) =>
      some (writeCell (allocVal v h).1 target
        (.carr (as ++ [(allocVal v h).2])))
  | _, _ => none

/-- Claim C9: `append` inserts a deep copy of its payload at the end
of the target list.  The fresh root is pushed at the end of the target
cell, it decodes to exactly the value the source entry held at append
time, and it keeps decoding to that value in every later heap that
leaves the freshly allocated region alone: after in-place mutation of
any pre-existing cell (in particular the decoded source entry's
cells), after arbitrary such changes below the allocation frontier,
and after re-running the same append. -/
theorem append_deep_copy (h : Heap) (fuel : Nat) (target src : Addr)
    (as : List Addr) (v : Val)
    (ht : h[target]? = some (.carr as))
    (hr : readVal fuel h src = some v) :
    ∃ h2, heapAppend fuel target src h = some h2 ∧
      h2[target]? = some (.carr (as ++ [(allocVal v h).2])) ∧
      readVal (depthVal v) h2 (allocVal v h).2 = some v ∧
      (∀ (j : Nat) (c : Cell), j < h.length →
        readVal (depthVal v) (h2.set j c) (allocVal v h).2 = some v) ∧
      (∀ hL : Heap,
        (∀ i, h.length ≤ i → i < h2.length → hL[i]? = h2[i]?) →
        readVal (depthVal v) hL (allocVal v h).2 = some v) ∧
      (∀ (fuel2 target2 src2 : Nat) (h3 : Heap),
        target2 < h.length →
        heapAppend fuel2 target2 src2 h2 = some h3 →
        readVal (depthVal v) h3 (allocVal v h).2 = some v) := by
  have htlt : target < h.length := by
    by_contra hge
    rw [List.getElem?_eq_none (Nat.le_of_not_lt hge)] at ht
    cases ht
  have htlt2 : target < (allocVal v h).1.length :=
    lt_of_lt_of_le htlt (allocVal_le_length v h)
  refine ⟨writeCell (allocVal v h).1 target (.carr (as ++ [(allocVal v h).2])),
    ?_, ?_, ?_, ?_, ?_, ?_⟩
  · simp [heapAppend, hr, ht]
  · exact List.getElem?_set_eq_of_lt _ htlt2
  · apply readVal_alloc v h _ (depthVal v) (Nat.le_refl _)
    intro i hlo _
    simp only [writeCell]
    exact List.getElem?_set_ne (Nat.ne_of_lt (lt_of_lt_of_le htlt hlo))
  · intro j c hj
    apply readVal_alloc v h _ (depthVal v) (Nat.le_refl _)
    intro i hlo _
    simp only [writeCell]
    rw [List.getElem?_set_ne (Nat.ne_of_lt (lt_of_lt_of_le hj hlo))]
    exact List.getElem?_set_ne (Nat.ne_of_lt (lt_of_lt_of_le htlt hlo))
  · intro hL hag
    apply readVal_alloc v h _ (depthVal v) (Nat.le_refl _)
    intro i hlo hhi
    rw [hag i hlo (by simpa [writeCell] using hhi)]
    simp only [writeCell]
    exact List.getElem?_set_ne (Nat.ne_of_lt (lt_of_lt_of_le htlt hlo))
  · intro fuel2 target2 src2 h3 ht2 happ
    revert happ
    generalize hH2 : writeCell (allocVal v h).1 target
      (.carr (as ++ [(allocVal v h).2])) = h2
    intro happ
    have hlen2 : h2.length = (allocVal v h).1.length := by
      rw [← hH2]
      simp [writeCell]
    unfold heapAppend at happ
    cases hr2 : readVal fuel2 h2 src2 with
    | none => rw [hr2] at happ; cases happ
    | some v2 =>
      rw [hr2] at happ
      cases hc2 : h2[target2]? with
      | none => rw [hc2] at happ; cases happ
      | some cell =>
        rw [hc2] at happ
        cases cell with
        | cnull => cases happ
        | cbool b2 => cases happ
        | cint n2 => cases happ
        | cstr s2 => cases happ
        | cobj fs2 => cases happ
        | carr as2 =>
          cases happ
          apply readVal_alloc v h _ (depthVal v) (Nat.le_refl _)
          intro i hlo hhi
          simp only [writeCell]
          rw [List.getElem?_set_ne (Nat.ne_of_lt (lt_of_lt_of_le ht2 hlo))]
          rw [allocVal_getElem_low v2 h2 i (by omega)]
          rw [← hH2]
          simp only [writeCell]
          exact List.getElem?_set_ne (Nat.ne_of_lt (lt_of_lt_of_le htlt hlo))

/-- Witness for `append_deep_copy`: a three-cell heap — an empty
target list at address 0, a string cell at 1, and the decoded source
entry `{name: v}` at 2 — satisfies the hypotheses. -/
theorem append_deep_copy_witness :
    ([Cell.carr [], Cell.cstr "v",
        Cell.cobj [("name", 1)]] : Heap)[0]? = some (.carr []) ∧
    readVal 2 [Cell.carr [], Cell.cstr "v", Cell.cobj [("name", 1)]] 2 =
      some (.obj [("name", .str "v")]) ∧
    (∃ h2, heapAppend 2 0 2 [Cell.carr [], Cell.cstr "v",
        Cell.cobj [("name", 1)]] = some h2 ∧
      h2[0]? = some (.carr ([] ++
        [(allocVal (.obj [("name", .str "v")])
          [Cell.carr [], Cell.cstr "v", Cell.cobj [("name", 1)]]).2])) ∧
      readVal (depthVal (.obj [("name", .str "v")])) h2
        (allocVal (.obj [("name", .str "v")])
          [Cell.carr [], Cell.cstr "v", Cell.cobj [("name", 1)]]).2 =
        some (.obj [("name", .str "v")]) ∧
      (∀ (j : Nat) (c : Cell), j < ([Cell.carr [], Cell.cstr "v",
          Cell.cobj [("name", 1)]] : Heap).length →
        readVal (depthVal (.obj [("name", .str "v")])) (h2.set j c)
          (allocVal (.obj [("name", .str "v")])
            [Cell.carr [], Cell.cstr "v", Cell.cobj [("name", 1)]]).2 =
          some (.obj [("name", .str "v")])) ∧
      (∀ hL : Heap,
        (∀ i, ([Cell.carr [], Cell.cstr "v",
            Cell.cobj [("name", 1)]] : Heap).length ≤ i → i < h2.length →
          hL[i]? = h2[i]?) →
        readVal (depthVal (.obj [("name", .str "v")])) hL
          (allocVal (.obj [("name", .str "v")])
            [Cell.carr [], Cell.cstr "v", Cell.cobj [("name", 1)]]).2 =
          some (.obj [("name", .str "v")])) ∧
      (∀ (fuel2 target2 src2 : Nat) (h3 : Heap),
        target2 < ([Cell.carr [], Cell.cstr "v",
            Cell.cobj [("name", 1)]] : Heap).length →
        heapAppend fuel2 target2 src2 h2 = some h3 →
        readVal (depthVal (.obj [("name", .str "v")])) h3
          (allocVal (.obj [("name", .str "v")])
            [Cell.carr [], Cell.cstr "v", Cell.cobj [("name", 1)]]).2 =
          some (.obj [("name", .str "v")]))) :=
  ⟨by decide, by decide,
   append_deep_copy [Cell.carr [], Cell.cstr "v", Cell.cobj [("name", 1)]]
     2 0 2 [] (.obj [("name", .str "v")]) (by decide) (by decide)⟩

end Migration
